import Mathlib

/-!
Shallow embedding of the asm-popola repository (devola VM, assembler label
pass, and RGB15 color conversion), with theorems checking the natural-language
specification against the code.

Machine integers are modelled as `Nat` with explicit reduction modulo `2^8` /
`2^16` exactly where the Rust code's `u8` / `u16` arithmetic wraps or casts.
-/

namespace Popola

/-- Flag identifiers, from `instructions.rs` / `vm.rs`. -/
inductive Flag
  | Carry | Zero | Parity | Sign
deriving DecidableEq, Repr

/-- Register identifiers as used by `vm.rs` (five byte registers). -/
inductive Register
  | Accumulator | IndexX | IndexY | UtilityB | UtilityC
deriving DecidableEq, Repr

/-- Addressing modes as used by `vm.rs` (`AddressingMode`). -/
inductive AddressingMode
  | Register (r : Register)
  | Immediate (v : Nat)
  | Indirect (p : Nat)
  | Index
  | IndexOffset (k : Nat)
deriving DecidableEq, Repr

/-- Jump conditions (`JumpType`). -/
inductive JumpType
  | Unconditional
  | Flag (f : Flag) (set : Bool)
deriving DecidableEq, Repr

/-- Call targets (`CallType`): a local program index or a named library routine. -/
inductive CallType
  | Local (dest : Nat)
  | Library (name : String)
deriving DecidableEq, Repr

/-- The instruction set as consumed by `Devola::execute_instruction` in `vm.rs`
(the underscore variants are the assembler-internal placeholders). -/
inductive Instruction
  | Load (r : Register) (am : AddressingMode)
  | Store (r : Register) (am : AddressingMode)
  | Increment
  | Decrement
  | Add (am : AddressingMode)
  | AddXY (am : AddressingMode)
  | SubtractXY (am : AddressingMode)
  | Subtract (am : AddressingMode)
  | Compare (am : AddressingMode)
  | Jump (jt : JumpType) (dest : Nat)
  | Call (ct : CallType)
  | Return
  | Push (r : Register)
  | Pop (r : Register)
  | Nop
  | _Label (name : String)
  | _LabeledJump (jt : JumpType) (name : String)
  | _LabeledCall (name : String)
  | _Assert (am : AddressingMode) (v : Nat)
deriving DecidableEq, Repr

/-- Error variants of the executor (`DevolaError` in `vm.rs`). -/
inductive DevolaError
  | InvalidArgument | Unimplemented | EndCode
deriving DecidableEq, Repr

/-- `util::build_u16`: big-endian packing `(msb << 8) | lsb`. -/
def buildU16 (msb lsb : Nat) : Nat := (msb <<< 8) ||| lsb

/-- `util::break_u16`: `((word >> 8) as u8, (word & 0x00FF) as u8)`.
The `% 256` is the `as u8` cast. -/
def breakU16 (word : Nat) : Nat × Nat := ((word >>> 8) % 256, word &&& 0x00FF)

/-- Pointwise-update view of the 64 KiB byte store (`self.memory[a] = v`). -/
def setMem (m : Nat → Nat) (a v : Nat) : Nat → Nat :=
  fun x => if x = a then v else m x

/-- Callbacks in the host-extension table have Rust type
`Box<dyn FnMut(&mut Devola)>`.  No code path in the repository ever inserts or
invokes one (`externs` is initialized to `None` and never read), so callbacks
are modelled as uninterpreted `Unit` tokens: only the keys are observable. -/
def ExternTable : Type := List (String × Unit)

/-- The VM state: the `Devola` struct of `vm.rs` together with its
`DevolaMemory` (memory array, flag byte, five registers).  The debug fields
(`debug`, `call_stack`, `symbol_table`) only affect trace output, never
semantics, and are omitted. -/
structure Devola where
  mem : Nat → Nat
  flags : Nat
  regA : Nat
  regX : Nat
  regY : Nat
  regB : Nat
  regC : Nat
  code : List Instruction
  pc : Nat
  externs : Option ExternTable

/-- Register file read (`Index<Register> for DevolaMemory`). -/
def readReg (s : Devola) : Register → Nat
  | .Accumulator => s.regA
  | .IndexX => s.regX
  | .IndexY => s.regY
  | .UtilityB => s.regB
  | .UtilityC => s.regC

/-- Register file write (`IndexMut<Register> for DevolaMemory`). -/
def writeReg (s : Devola) : Register → Nat → Devola
  | .Accumulator, v => { s with regA := v }
  | .IndexX, v => { s with regX := v }
  | .IndexY, v => { s with regY := v }
  | .UtilityB, v => { s with regB := v }
  | .UtilityC, v => { s with regC := v }

/-- Bit position of each flag in the flag byte (`DevolaMemory::flag`). -/
def flagShift : Flag → Nat
  | .Carry => 0
  | .Zero => 1
  | .Parity => 2
  | .Sign => 3

/-- `DevolaMemory::flag`: `(self.flags >> n & 1) == 1`. -/
def flag (s : Devola) (f : Flag) : Bool :=
  ((s.flags >>> flagShift f) &&& 1) == 1

/-- `DevolaMemory::flag_mask` (the Rust binary literals `0b1111_1110` etc.,
written in hexadecimal). -/
def flagMask : Flag → Nat
  | .Carry => 0xFE
  | .Zero => 0xFD
  | .Parity => 0xFB
  | .Sign => 0xF7

/-- `DevolaMemory::clear_flag`: `flags &= mask`. -/
def clearFlag (s : Devola) (f : Flag) : Devola :=
  { s with flags := s.flags &&& flagMask f }

/-- `DevolaMemory::set_flag`: `flags |= !mask` (`^^^ 0xFF` is the `u8` not). -/
def setFlag (s : Devola) (f : Flag) : Devola :=
  { s with flags := s.flags ||| (flagMask f ^^^ 0xFF) }

/-- `DevolaMemory::get_index`: the 16-bit address `X:Y`. -/
def getIndex (s : Devola) : Nat := (s.regX <<< 8) ||| s.regY

/-- MMIO cell addresses of the stack pointer (`vm.rs` constants). -/
def STACK_POINTER_MSB : Nat := 0x0FF0

/-- LSB cell of the stack pointer MMIO pair. -/
def STACK_POINTER_LSB : Nat := 0x0FF1

/-- `Devola::get_stack_pointer`. -/
def getStackPointer (s : Devola) : Nat :=
  buildU16 (s.mem STACK_POINTER_MSB) (s.mem STACK_POINTER_LSB)

/-- `Devola::push`: decrement the stack pointer (wrapping 16-bit arithmetic),
write the value there, then write the new pointer back to its MMIO cells. -/
def pushByte (s : Devola) (value : Nat) : Devola :=
  let nsp := (getStackPointer s + 65535) % 65536
  let p := breakU16 nsp
  let m := setMem (setMem (setMem s.mem nsp value) STACK_POINTER_MSB p.1)
    STACK_POINTER_LSB p.2
  { s with mem := m }

/-- `Devola::pop`: increment the stack pointer (wrapping 16-bit arithmetic),
write it back to the MMIO cells, then read the byte at `new_sp - 1`
(the read happens after the MMIO writes, from the updated memory). -/
def popByte (s : Devola) : Nat × Devola :=
  let nsp := (getStackPointer s + 1) % 65536
  let p := breakU16 nsp
  let m := setMem (setMem s.mem STACK_POINTER_MSB p.1) STACK_POINTER_LSB p.2
  (m ((nsp + 65535) % 65536), { s with mem := m })

/-- `Devola::resolve_rvalue`. -/
def resolveRvalue (s : Devola) : AddressingMode → Nat
  | .Register r => readReg s r
  | .Immediate v => v
  | .Indirect p => s.mem p
  | .Index => s.mem (getIndex s)
  | .IndexOffset k => s.mem ((getIndex s + k) % 65536)

/-- `Devola::execute_instruction`, one arm per Rust `match` arm.  `u8`/`u16`
wrap-around arithmetic (`overflowing_add`/`overflowing_sub`, casts) is written
as explicit `% 256` / `% 65536`.  The `_Assert` arm in Rust panics on a failed
assertion, aborting the run; the abort is modelled as an error result. -/
def executeInstruction (s : Devola) : Instruction → Except DevolaError Devola
  | .Load destRegister am =>
    .ok (writeReg s destRegister (resolveRvalue s am))
  | .Store r am =>
    match am with
    | .Register _ | .Immediate _ => .error .InvalidArgument
    | .Indirect pointer => .ok { s with mem := setMem s.mem pointer (readReg s r) }
    | .Index => .ok { s with mem := setMem s.mem (getIndex s) (readReg s r) }
    | .IndexOffset k =>
      .ok { s with mem := setMem s.mem ((getIndex s + k) % 65536) (readReg s r) }
  | .Increment =>
    let s := clearFlag (clearFlag (clearFlag s .Zero) .Sign) .Parity
    let s := if readReg s .Accumulator = 0xFF
      then setFlag (writeReg s .Accumulator 0) .Zero
      else writeReg s .Accumulator (readReg s .Accumulator + 1)
    let result := readReg s .Accumulator
    let s := if result % 2 = 1 then setFlag s .Parity else s
    let s := if result &&& 0x80 = 0x80 then setFlag s .Sign else s
    .ok s
  | .Decrement =>
    let s := clearFlag (clearFlag (clearFlag s .Zero) .Sign) .Parity
    let s := if readReg s .Accumulator = 0x00
      then setFlag (writeReg s .Accumulator 0xFF) .Zero
      else writeReg s .Accumulator (readReg s .Accumulator - 1)
    let result := readReg s .Accumulator
    let s := if result % 2 = 1 then setFlag s .Parity else s
    let s := if result &&& 0x80 = 0x80 then setFlag s .Sign else s
    .ok s
  | .Add am =>
    let s := clearFlag (clearFlag (clearFlag (clearFlag s .Zero) .Sign) .Parity) .Carry
    let addand := resolveRvalue s am
    let accumulator := readReg s .Accumulator
    let result := (accumulator + addand) % 256
    let carry := 256 ≤ accumulator + addand
    let s := writeReg s .Accumulator result
    let s := if result = 0 then setFlag s .Zero else s
    let s := if result &&& 0x80 = 0x80 then setFlag s .Sign else s
    let s := if result % 2 = 1 then setFlag s .Parity else s
    let s := if carry then setFlag s .Carry else s
    .ok s
  | .AddXY am =>
    let s := clearFlag (clearFlag (clearFlag s .Zero) .Parity) .Carry
    let addand := resolveRvalue s am
    let index := getIndex s
    let result := (index + addand) % 65536
    let carry := 65536 ≤ index + addand
    let p := breakU16 result
    let s := writeReg (writeReg s .IndexX p.1) .IndexY p.2
    let s := if result = 0 then setFlag s .Zero else s
    let s := if result % 2 = 1 then setFlag s .Parity else s
    let s := if carry then setFlag s .Carry else s
    .ok s
  | .SubtractXY am =>
    let s := clearFlag (clearFlag (clearFlag s .Zero) .Parity) .Carry
    let addand := resolveRvalue s am
    let index := getIndex s
    let result := (index + 65536 - addand % 65536) % 65536
    let carry := index < addand
    let p := breakU16 result
    let s := writeReg (writeReg s .IndexX p.1) .IndexY p.2
    let s := if result = 0 then setFlag s .Zero else s
    let s := if result % 2 = 1 then setFlag s .Parity else s
    let s := if carry then setFlag s .Carry else s
    .ok s
  | .Subtract am =>
    let s := clearFlag (clearFlag (clearFlag (clearFlag s .Zero) .Sign) .Parity) .Carry
    let addand := resolveRvalue s am
    let accumulator := readReg s .Accumulator
    let result := (accumulator + 256 - addand % 256) % 256
    let carry := accumulator < addand
    let s := writeReg s .Accumulator result
    let s := if result = 0 then setFlag s .Zero else s
    let s := if result &&& 0x80 = 0x80 then setFlag s .Sign else s
    let s := if result % 2 = 1 then setFlag s .Parity else s
    let s := if carry then setFlag s .Carry else s
    .ok s
  | .Compare am =>
    let s := clearFlag (clearFlag (clearFlag (clearFlag s .Zero) .Sign) .Parity) .Carry
    let comparator := resolveRvalue s am
    let accumulator := readReg s .Accumulator
    let s := if comparator = accumulator then setFlag s .Zero else s
    let s := if comparator &&& 0x80 = accumulator &&& 0x80 then setFlag s .Sign else s
    let s := if comparator % 2 = accumulator % 2 then setFlag s .Parity else s
    let s := if accumulator < comparator then setFlag s .Carry else s
    .ok s
  | .Jump jumpType destination =>
    match jumpType with
    | .Unconditional => .ok { s with pc := destination }
    | .Flag f set =>
      if (flag s f && set) || (!flag s f && !set)
      then .ok { s with pc := destination }
      else .ok s
  | .Call callType =>
    match callType with
    | .Local dest =>
      let p := breakU16 (s.pc % 65536)
      let s := pushByte s p.1
      let s := pushByte s p.2
      .ok { s with pc := dest }
    | .Library _ => .error .Unimplemented
  | .Return =>
    let r1 := popByte s
    let r2 := popByte r1.2
    .ok { r2.2 with pc := buildU16 r2.1 r1.1 }
  | .Push r => .ok (pushByte s (readReg s r))
  | .Pop r =>
    let r1 := popByte s
    .ok (writeReg r1.2 r r1.1)
  | .Nop | ._Label _ | ._LabeledJump _ _ | ._LabeledCall _ => .ok s
  | ._Assert am v =>
    if resolveRvalue s am = v then .ok s else .error .InvalidArgument

/-- Initial memory size constant (`MEMORY_SIZE` is 65536; memory is total here).
`Devola::new`: zeroed memory, flags and registers, pc 0, no extern table, and
the stack-pointer MMIO cells initialized from `break_u16(0x0F00)`. -/
def Devola.new (code : List Instruction) : Devola :=
  let p := breakU16 0x0F00
  { mem := setMem (setMem (fun _ => 0) STACK_POINTER_MSB p.1) STACK_POINTER_LSB p.2
    flags := 0
    regA := 0
    regX := 0
    regY := 0
    regB := 0
    regC := 0
    code := code
    pc := 0
    externs := none }

/-- `Devola::step`: fetch `code[pc]`; out of bounds terminates with `EndCode`;
otherwise execute the instruction and then increment `pc` by 1 (the increment
is unconditional in the source — it happens after every successfully executed
instruction, including `Jump`, `Call` and `Return`). -/
def Devola.step (s : Devola) : Except DevolaError Devola :=
  match s.code[s.pc]? with
  | none => .error .EndCode
  | some instruction =>
    match executeInstruction s instruction with
    | .error e => .error e
    | .ok s' => .ok { s' with pc := s'.pc + 1 }

/-! Assembler label pass (`parser.rs`, module `intermediate`). -/

/-- Parse error kinds (`parser::text::ParseErrorType`). -/
inductive ParseErrorType
  | InvalidRegister | InvalidFlag
  | InvalidNumericLiteral | InvalidInstruction | InvalidLabel
deriving DecidableEq, Repr

/-- Parse errors (`parser::text::ParseError`). -/
structure ParseError where
  error_type : ParseErrorType
  location : Nat
  info : Option String
deriving DecidableEq, Repr

/-- The reverse symbol table of `process_labels`: the `(label, pc)` pairs of
the `_Label` placeholders, in program order (the Rust code collects them into
a `HashMap`; see `tableGet` for its lookup semantics). -/
def jumpTable (code : List Instruction) : List (String × Nat) :=
  code.enum.filterMap fun p =>
    match p.2 with
    | ._Label label => some (label, p.1)
    | _ => none

/-- `HashMap::get` on a map collected from a pair iterator: for duplicate
keys the last insertion wins, so look the key up in the reversed pair list. -/
def tableGet (t : List (String × Nat)) (label : String) : Option Nat :=
  t.reverse.lookup label

/-- The body of the `filter_map` closure in `process_labels`, iterated over the
enumerated instruction stream: returns the resolved instructions (the closure's
`Some` results, in order) and the `missing_labels` list (pushed in order). -/
def processLabelsGo (jt : List (String × Nat)) :
    Nat → List Instruction → List Instruction × List (String × Nat)
  | _, [] => ([], [])
  | line, instruction :: rest =>
    let r := processLabelsGo jt (line + 1) rest
    match instruction with
    | ._LabeledJump jumpType label =>
      match tableGet jt label with
      | some pc => (.Jump jumpType pc :: r.1, r.2)
      | none => (r.1, (label, line) :: r.2)
    | ._LabeledCall label =>
      match tableGet jt label with
      | some pc => (.Call (.Local pc) :: r.1, r.2)
      | none => (r.1, (label, line) :: r.2)
    | ._Label _ => (.Nop :: r.1, r.2)
    | i => (i :: r.1, r.2)

/-- `intermediate::process_labels`: build the reverse table from the `_Label`
placeholders, rewrite the stream, and fail with the missing-label list when it
is nonempty; on success also return the `pc → label` symbol table. -/
def processLabels (code : List Instruction) :
    Except (List (String × Nat)) (List Instruction × List (Nat × String)) :=
  let jt := jumpTable code
  let r := processLabelsGo jt 0 code
  if r.2.isEmpty
  then .ok (r.1, jt.map fun p => (p.2, p.1))
  else .error r.2

/-- `parser::text::compile`, entered at the point where `to_instruction` has
succeeded on every preprocessed line (the input is the list of
(source-line, instruction) pairs produced by `preprocess` + `to_instruction`;
the program has no lexical parse errors).  The source pushes only the
instructions into `output`, dropping the locations, then maps each
missing-label pair to an `InvalidLabel` error whose `location` is the second
component recorded by `process_labels`. -/
def compileParsed (lines : List (Nat × Instruction)) :
    Except (List ParseError) (List Instruction × List (Nat × String)) :=
  match processLabels (lines.map Prod.snd) with
  | .error missingLabels =>
    .error (missingLabels.map fun p =>
      { error_type := .InvalidLabel, location := p.2, info := some p.1 })
  | .ok processed => .ok processed

/-! Color conversion (`src/inter/gfx.rs`). -/

/-- RGB color with byte channels (`gfx::model::Color`). -/
structure Color where
  r : Nat
  g : Nat
  b : Nat
deriving DecidableEq, Repr

/-- `rgb15_to_color`: each 5-bit channel is extracted and multiplied by 8 in
`u8` arithmetic (`8 * (..) as u8`; the `% 256` are the cast and the `u8`
product). -/
def rgb15ToColor (color_word : Nat) : Color :=
  { r := (8 * ((color_word >>> 10) % 256)) % 256
    g := (8 * (((color_word >>> 5) &&& 0x1F) % 256)) % 256
    b := (8 * ((color_word &&& 0x1F) % 256)) % 256 }

/-- `color_to_rgb15`: divide each channel by 8 and repack big-endian. -/
def colorToRgb15 (color : Color) : Nat :=
  ((color.r / 8) <<< 10) ||| ((color.g / 8) <<< 5) ||| (color.b / 8)

/-! Helper lemmas about the embedding. -/

theorem setMem_same (m : Nat → Nat) (a v : Nat) : setMem m a v a = v := by
  simp [setMem]

theorem setMem_other (m : Nat → Nat) (a v b : Nat) (h : b ≠ a) :
    setMem m a v b = m b := by
  simp [setMem, h]

theorem breakU16_fst_lt (w : Nat) : (breakU16 w).1 < 256 := by
  simp only [breakU16]
  omega

theorem breakU16_snd_lt (w : Nat) : (breakU16 w).2 < 256 := by
  have h : w &&& 0x00FF = w % 256 := by
    have := Nat.and_pow_two_sub_one_eq_mod w 8
    norm_num at this
    exact this
  simp only [breakU16, h]
  omega

theorem buildU16_breakU16 (w : Nat) (h : w < 65536) :
    buildU16 (breakU16 w).1 (breakU16 w).2 = w := by
  have h255 : w &&& 0x00FF = w % 256 := by
    have := Nat.and_pow_two_sub_one_eq_mod w 8
    norm_num at this
    exact this
  have hdiv : w >>> 8 = w / 256 := by
    have := Nat.shiftRight_eq_div_pow w 8
    norm_num at this
    exact this
  have hq : w / 256 < 256 := by omega
  have hmod : w / 256 % 256 = w / 256 := Nat.mod_eq_of_lt hq
  have hsl : (w / 256) <<< 8 = 2 ^ 8 * (w / 256) := by
    rw [Nat.shiftLeft_eq]; ring
  have hor : 2 ^ 8 * (w / 256) + w % 256 = 2 ^ 8 * (w / 256) ||| w % 256 :=
    Nat.mul_add_lt_is_or (by omega) (w / 256)
  simp only [buildU16, breakU16, h255, hdiv, hmod, hsl]
  rw [← hor]
  omega

theorem buildU16_lt (msb lsb : Nat) (h1 : msb < 256) (h2 : lsb < 256) :
    buildU16 msb lsb < 65536 := by
  have hs : msb <<< 8 = 2 ^ 8 * msb := by rw [Nat.shiftLeft_eq]; ring
  have : msb <<< 8 < 2 ^ 16 := by rw [hs]; omega
  have := Nat.or_lt_two_pow (x := msb <<< 8) (y := lsb) (n := 16) this (by omega)
  simpa using this

theorem flag_eq_testBit (s : Devola) (f : Flag) :
    flag s f = s.flags.testBit (flagShift f) := by
  rw [flag, Nat.testBit_to_div_mod, Nat.shiftRight_eq_div_pow, Nat.and_one_is_mod]
  by_cases hc : s.flags / 2 ^ flagShift f % 2 = 1
  · simp [hc]
  · simp [hc]

theorem flag_setFlag (s : Devola) (f g : Flag) :
    flag (setFlag s g) f = (flag s f || decide (f = g)) := by
  cases f <;> cases g <;>
    simp [flag_eq_testBit, setFlag, flagMask, flagShift, Nat.testBit_or] <;>
    norm_num [Nat.testBit_to_div_mod]

theorem flag_clearFlag (s : Devola) (f g : Flag) :
    flag (clearFlag s g) f = (flag s f && !decide (f = g)) := by
  cases f <;> cases g <;>
    simp [flag_eq_testBit, clearFlag, flagMask, flagShift, Nat.testBit_and] <;>
    norm_num [Nat.testBit_to_div_mod]

theorem flags_writeReg (s : Devola) (r : Register) (v : Nat) :
    (writeReg s r v).flags = s.flags := by
  cases r <;> rfl

theorem flags_pushByte (s : Devola) (v : Nat) : (pushByte s v).flags = s.flags := rfl

theorem flags_popByte (s : Devola) : (popByte s).2.flags = s.flags := rfl

theorem readReg_setFlag (s : Devola) (g : Flag) (r : Register) :
    readReg (setFlag s g) r = readReg s r := by
  cases r <;> rfl

theorem readReg_clearFlag (s : Devola) (g : Flag) (r : Register) :
    readReg (clearFlag s g) r = readReg s r := by
  cases r <;> rfl

theorem readReg_writeReg_acc (s : Devola) (v : Nat) :
    readReg (writeReg s .Accumulator v) .Accumulator = v := rfl

theorem resolveRvalue_setFlag (s : Devola) (g : Flag) (am : AddressingMode) :
    resolveRvalue (setFlag s g) am = resolveRvalue s am := by
  cases am with
  | Register r => cases r <;> rfl
  | _ => rfl

theorem resolveRvalue_clearFlag (s : Devola) (g : Flag) (am : AddressingMode) :
    resolveRvalue (clearFlag s g) am = resolveRvalue s am := by
  cases am with
  | Register r => cases r <;> rfl
  | _ => rfl

theorem flag_writeReg (s : Devola) (r : Register) (v : Nat) (f : Flag) :
    flag (writeReg s r v) f = flag s f := by
  cases r <;> rfl

/-- C4.  Executing `Compare` always succeeds; afterwards Zero holds iff
`A == x`, Sign holds iff `A` and `x` agree in bit 7, Parity holds iff they
agree in bit 0, Carry holds iff `A < x` as unsigned bytes, and the
accumulator is unchanged (the arm first clears Z, S, P, C and then sets them
from these conditions, so the result is independent of the incoming flags). -/
theorem compare_flag_semantics (s : Devola) (am : AddressingMode) :
    ∃ s', executeInstruction s (.Compare am) = .ok s' ∧
      flag s' .Zero = decide (readReg s .Accumulator = resolveRvalue s am) ∧
      flag s' .Sign =
        decide (readReg s .Accumulator &&& 0x80 = resolveRvalue s am &&& 0x80) ∧
      flag s' .Parity =
        decide (readReg s .Accumulator &&& 1 = resolveRvalue s am &&& 1) ∧
      flag s' .Carry = decide (readReg s .Accumulator < resolveRvalue s am) ∧
      readReg s' .Accumulator = readReg s .Accumulator := by
  refine ⟨_, rfl, ?_⟩
  simp only [resolveRvalue_clearFlag, readReg_clearFlag, Nat.and_one_is_mod]
  split_ifs with h1 h2 h3 h4 <;>
    simp_all [flag_setFlag, flag_clearFlag, readReg_setFlag, readReg_clearFlag,
      eq_comm, Nat.lt_irrefl]

/-- The instructions whose executor arms touch the flag byte: exactly
`Increment`, `Decrement`, `Add`, `AddXY`, `Subtract`, `SubtractXY`, `Compare`. -/
def modifiesFlags : Instruction → Bool
  | .Increment | .Decrement | .Add _ | .AddXY _ | .SubtractXY _ | .Subtract _
  | .Compare _ => true
  | _ => false

/-- C10.  Successfully executing any instruction outside the arithmetic
group — in particular `Load`, `Store`, `Jump`, `Call(Local)`, `Return`,
`Push`, `Pop`, `Nop` — leaves the flag byte unchanged. -/
theorem flag_frame_effect (s s' : Devola) (i : Instruction)
    (hm : modifiesFlags i = false)
    (he : executeInstruction s i = .ok s') : s'.flags = s.flags := by
  cases i with
  | Load r am =>
    simp only [executeInstruction, Except.ok.injEq] at he
    subst he
    exact flags_writeReg s r (resolveRvalue s am)
  | Store r am =>
    cases am <;> simp only [executeInstruction, Except.ok.injEq] at he <;>
      first
      | exact absurd he (by simp)
      | (subst he; rfl)
  | Jump jt dest =>
    cases jt with
    | Unconditional =>
      simp only [executeInstruction, Except.ok.injEq] at he
      subst he; rfl
    | Flag f b =>
      simp only [executeInstruction] at he
      split at he <;> (simp only [Except.ok.injEq] at he; subst he; rfl)
  | Call ct =>
    cases ct with
    | Local dest =>
      simp only [executeInstruction, Except.ok.injEq] at he
      subst he
      rw [flags_pushByte, flags_pushByte]
    | Library name => exact absurd he (by simp [executeInstruction])
  | Return =>
    simp only [executeInstruction, Except.ok.injEq] at he
    subst he
    rw [flags_popByte, flags_popByte]
  | Push r =>
    simp only [executeInstruction, Except.ok.injEq] at he
    subst he
    exact flags_pushByte s (readReg s r)
  | Pop r =>
    simp only [executeInstruction, Except.ok.injEq] at he
    subst he
    rw [flags_writeReg, flags_popByte]
  | Nop => simp only [executeInstruction, Except.ok.injEq] at he; subst he; rfl
  | _Label n => simp only [executeInstruction, Except.ok.injEq] at he; subst he; rfl
  | _LabeledJump jt n =>
    simp only [executeInstruction, Except.ok.injEq] at he; subst he; rfl
  | _LabeledCall n =>
    simp only [executeInstruction, Except.ok.injEq] at he; subst he; rfl
  | _Assert am v =>
    simp only [executeInstruction] at he
    split at he
    · simp only [Except.ok.injEq] at he; subst he; rfl
    · exact absurd he (by simp)
  | Increment => simp [modifiesFlags] at hm
  | Decrement => simp [modifiesFlags] at hm
  | Add am => simp [modifiesFlags] at hm
  | AddXY am => simp [modifiesFlags] at hm
  | SubtractXY am => simp [modifiesFlags] at hm
  | Subtract am => simp [modifiesFlags] at hm
  | Compare am => simp [modifiesFlags] at hm

/-- C10 witness: `Nop` executes successfully from the fresh VM and leaves the
flag byte unchanged. -/
theorem flag_frame_effect_witness :
    ∃ s', executeInstruction (Devola.new []) .Nop = .ok s' ∧
      s'.flags = (Devola.new []).flags :=
  ⟨Devola.new [], rfl, flag_frame_effect (Devola.new []) (Devola.new []) .Nop rfl rfl⟩

theorem clearFlag_flags_lt {s : Devola} (f : Flag) (h : s.flags < 16) :
    (clearFlag s f).flags < 16 :=
  lt_of_le_of_lt Nat.and_le_left h

theorem setFlag_flags_lt {s : Devola} (f : Flag) (h : s.flags < 16) :
    (setFlag s f).flags < 16 := by
  have hb : (flagMask f ^^^ 0xFF) < 2 ^ 4 := by cases f <;> decide
  have h4 : s.flags < 2 ^ 4 := by simpa using h
  simpa [setFlag] using Nat.or_lt_two_pow h4 hb

/-- The flag byte never acquires a bit above position 3: every executor arm
only touches flags through `set_flag` / `clear_flag`. -/
theorem executeInstruction_flags_lt {s s' : Devola} (i : Instruction)
    (h : s.flags < 16) (he : executeInstruction s i = .ok s') : s'.flags < 16 := by
  cases i with
  | Store r am =>
    cases am <;> simp only [executeInstruction, Except.ok.injEq] at he <;>
      first
      | exact absurd he (by simp)
      | (subst he; exact h)
  | Jump jt dest =>
    cases jt with
    | Unconditional =>
      simp only [executeInstruction, Except.ok.injEq] at he
      subst he; exact h
    | Flag f b =>
      simp only [executeInstruction] at he
      split at he <;> (simp only [Except.ok.injEq] at he; subst he; exact h)
  | Call ct =>
    cases ct with
    | Local dest =>
      simp only [executeInstruction, Except.ok.injEq] at he
      subst he
      rw [flags_pushByte, flags_pushByte]; exact h
    | Library name => exact absurd he (by simp [executeInstruction])
  | _Assert am v =>
    simp only [executeInstruction] at he
    split at he
    · simp only [Except.ok.injEq] at he; subst he; exact h
    · exact absurd he (by simp)
  | _ =>
    simp only [executeInstruction, Except.ok.injEq] at he
    subst he
    repeat
      first
      | exact h
      | apply setFlag_flags_lt
      | apply clearFlag_flags_lt
      | rw [flags_writeReg]
      | rw [flags_pushByte]
      | rw [flags_popByte]
      | split

/-- States reachable from `s0` by zero or more successful `step`s. -/
inductive Reachable (s0 : Devola) : Devola → Prop
  | refl : Reachable s0 s0
  | tail : ∀ {s s'}, Reachable s0 s → s.step = .ok s' → Reachable s0 s'

theorem reachable_flags_lt (code : List Instruction) (s : Devola)
    (h : Reachable (Devola.new code) s) : s.flags < 16 := by
  induction h with
  | refl => exact (by decide : (0 : Nat) < 16)
  | tail _ hstep ih =>
    unfold Devola.step at hstep
    split at hstep
    · exact absurd hstep (by simp)
    · rename_i inst hfetch
      split at hstep
      · exact absurd hstep (by simp)
      · rename_i s2 hexec
        simp only [Except.ok.injEq] at hstep
        subst hstep
        have hs2 := executeInstruction_flags_lt inst ih hexec
        exact hs2

/-- C8.  In every VM state reachable from a freshly constructed VM by
executed instructions, bits 4 through 7 of the flag byte are zero. -/
theorem reachable_flags_reserved_zero (code : List Instruction) (s : Devola)
    (h : Reachable (Devola.new code) s) : s.flags &&& 0xF0 = 0 := by
  have hlt : s.flags < 16 := reachable_flags_lt code s h
  interval_cases hf : s.flags <;> decide

/-- C8 witness: the freshly constructed VM itself. -/
theorem reachable_flags_reserved_zero_witness :
    (Devola.new []).flags &&& 0xF0 = 0 :=
  reachable_flags_reserved_zero [] (Devola.new []) Reachable.refl

/-- C1 counterexample.  The claim says that after a taken `Jump` the step
leaves `pc` equal to the assigned target.  For the one-instruction program
`[Jump(Unconditional, 0)]` the target is `0`, but the step ends with
`pc = 1`: the `pc += 1` in `Devola::step` is unconditional. -/
theorem step_jump_pc_counterexample :
    ((Devola.new [.Jump .Unconditional 0]).step).map Devola.pc = .ok 1 ∧
      (1 : Nat) ≠ 0 := by
  constructor
  · rfl
  · decide

/-- C1 amended.  Each step fetches `program[pc]`; when `pc` is past the last
instruction the step reports `EndCode`; otherwise the instruction executes
and `pc` is then advanced by 1 unconditionally — also after an instruction
that assigned `pc` itself, so a taken `Jump`/`Call` to target `t` leaves
`pc = t + 1`, not `t`. -/
theorem step_pc_discipline (s : Devola) :
    (s.code[s.pc]? = none → s.step = .error .EndCode) ∧
    (∀ inst, s.code[s.pc]? = some inst →
      s.step = (executeInstruction s inst).map fun s' => { s' with pc := s'.pc + 1 }) ∧
    (∀ t, s.code[s.pc]? = some (.Jump .Unconditional t) →
      ∃ s', s.step = .ok s' ∧ s'.pc = t + 1) := by
  refine ⟨?_, ?_, ?_⟩
  · intro hn
    simp only [Devola.step, hn]
  · intro inst hi
    simp only [Devola.step, hi]
    cases hx : executeInstruction s inst <;> rfl
  · intro t ht
    simp only [Devola.step, ht, executeInstruction]
    exact ⟨_, rfl, rfl⟩

/-- C1 amended witness: for the concrete program `[Jump(Unconditional, 5)]`
the single step succeeds and ends with `pc = 6`. -/
theorem step_pc_discipline_witness :
    ∃ s', (Devola.new [.Jump .Unconditional 5]).step = .ok s' ∧ s'.pc = 5 + 1 :=
  (step_pc_discipline (Devola.new [.Jump .Unconditional 5])).2.2 5 rfl

/-- C2 counterexample.  The claim says that when the extension table contains
the called name, the callback is invoked and execution falls through (an `ok`
result).  In a state whose table does contain the name "f", executing
`Call(Library("f"))` nevertheless returns the `Unimplemented` error: the
`Call` arm of `execute_instruction` never consults `externs`. -/
theorem call_library_counterexample :
    (∃ cb, { Devola.new [] with externs := some [("f", cb)] }.externs
        = some [("f", cb)]) ∧
      executeInstruction { Devola.new [] with externs := some [("f", ())] }
        (.Call (.Library "f")) = .error .Unimplemented :=
  ⟨⟨(), rfl⟩, rfl⟩

/-- C2 amended.  Executing `Call(Library(name))` returns the `Unimplemented`
error for every state and every name; the host-extension table is never
consulted (the repository also never populates it: `externs` is `None` from
construction and has no setter). -/
theorem call_library_always_unimplemented (s : Devola) (name : String) :
    executeInstruction s (.Call (.Library name)) = .error .Unimplemented := rfl

theorem pushByte_mem (s : Devola) (v a : Nat) :
    (pushByte s v).mem a =
      if a = STACK_POINTER_LSB then (breakU16 ((getStackPointer s + 65535) % 65536)).2
      else if a = STACK_POINTER_MSB then
        (breakU16 ((getStackPointer s + 65535) % 65536)).1
      else if a = (getStackPointer s + 65535) % 65536 then v
      else s.mem a := rfl

theorem stack_pointer_cells_ne : STACK_POINTER_MSB ≠ STACK_POINTER_LSB := by
  decide

theorem getStackPointer_pushByte (s : Devola) (v : Nat) :
    getStackPointer (pushByte s v) = (getStackPointer s + 65535) % 65536 := by
  rw [getStackPointer, pushByte_mem, pushByte_mem,
    if_neg stack_pointer_cells_ne, if_pos rfl, if_pos rfl]
  exact buildU16_breakU16 _ (Nat.mod_lt _ (by omega))

theorem popByte_mem (s : Devola) (a : Nat) :
    (popByte s).2.mem a =
      if a = STACK_POINTER_LSB then (breakU16 ((getStackPointer s + 1) % 65536)).2
      else if a = STACK_POINTER_MSB then (breakU16 ((getStackPointer s + 1) % 65536)).1
      else s.mem a := rfl

theorem getStackPointer_popByte (s : Devola) :
    getStackPointer (popByte s).2 = (getStackPointer s + 1) % 65536 := by
  rw [getStackPointer, popByte_mem, popByte_mem,
    if_neg stack_pointer_cells_ne, if_pos rfl, if_pos rfl]
  exact buildU16_breakU16 _ (Nat.mod_lt _ (by omega))

theorem popByte_val (s : Devola) :
    (popByte s).1
      = (popByte s).2.mem (((getStackPointer s + 1) % 65536 + 65535) % 65536) := rfl

/-- C7.  `push` at stack pointer `0x0000` and `pop` at `0xFFFF` do not abort:
the pointer update wraps as 16-bit arithmetic — push at 0 moves the pointer
to `0xFFFF` and writes the value there, pop at `0xFFFF` moves it to `0x0000`
and reads the byte at `0xFFFF`.  (`pushByte`/`popByte` are total functions of
the VM state by construction.) -/
theorem stack_pointer_wraps (s : Devola) (v : Nat) :
    (getStackPointer s = 0 →
      getStackPointer (pushByte s v) = 0xFFFF ∧ (pushByte s v).mem 0xFFFF = v) ∧
    (getStackPointer s = 0xFFFF →
      getStackPointer (popByte s).2 = 0 ∧ (popByte s).1 = s.mem 0xFFFF) := by
  constructor
  · intro h0
    refine ⟨?_, ?_⟩
    · rw [getStackPointer_pushByte, h0]
    · rw [pushByte_mem, h0, if_neg (by decide), if_neg (by decide),
        if_pos (by norm_num)]
  · intro hF
    refine ⟨?_, ?_⟩
    · rw [getStackPointer_popByte, hF]
    · rw [popByte_val, popByte_mem, hF, if_neg (by decide), if_neg (by decide)]

/-- C7 witness: concrete states with the stack pointer at `0x0000` and at
`0xFFFF`. -/
theorem stack_pointer_wraps_witness :
    (getStackPointer (pushByte
        { Devola.new [] with
          mem := setMem (setMem (Devola.new []).mem 0x0FF0 0) 0x0FF1 0 } 7) = 0xFFFF ∧
      (pushByte
        { Devola.new [] with
          mem := setMem (setMem (Devola.new []).mem 0x0FF0 0) 0x0FF1 0 } 7).mem 0xFFFF = 7) ∧
    (getStackPointer (popByte
        { Devola.new [] with
          mem := setMem (setMem (Devola.new []).mem 0x0FF0 0xFF) 0x0FF1 0xFF }).2 = 0 ∧
      (popByte
        { Devola.new [] with
          mem := setMem (setMem (Devola.new []).mem 0x0FF0 0xFF) 0x0FF1 0xFF }).1
        = { Devola.new [] with
            mem := setMem (setMem (Devola.new []).mem 0x0FF0 0xFF) 0x0FF1 0xFF }.mem
            0xFFFF) :=
  ⟨(stack_pointer_wraps _ 7).1 rfl, (stack_pointer_wraps _ 7).2 rfl⟩

/-- C9.  For every 15-bit word `w`, scaling the three 5-bit channels up by 8
(`rgb15_to_color`) and back down by 8 (`color_to_rgb15`) returns exactly `w`. -/
theorem rgb15_color_roundtrip (w : Nat) (h : w < 0x8000) :
    colorToRgb15 (rgb15ToColor w) = w := by
  have h31 : ∀ x : Nat, x &&& 0x1F = x % 32 := fun x => by
    have := Nat.and_pow_two_sub_one_eq_mod x 5
    norm_num at this
    exact this
  have hsr10 : w >>> 10 = w / 1024 := by
    have := Nat.shiftRight_eq_div_pow w 10
    norm_num at this
    exact this
  have hsr5 : w >>> 5 = w / 32 := by
    have := Nat.shiftRight_eq_div_pow w 5
    norm_num at this
    exact this
  have hr : w / 1024 < 32 := by omega
  have hg : w / 32 % 32 < 32 := Nat.mod_lt _ (by norm_num)
  have hb : w % 32 < 32 := Nat.mod_lt _ (by norm_num)
  unfold colorToRgb15 rgb15ToColor
  simp only [hsr10, hsr5, h31]
  rw [Nat.mod_eq_of_lt (a := w / 1024) (by omega),
    Nat.mod_eq_of_lt (a := w / 32 % 32) (by omega),
    Nat.mod_eq_of_lt (a := w % 32) (by omega),
    Nat.mod_eq_of_lt (a := 8 * (w / 1024)) (by omega),
    Nat.mod_eq_of_lt (a := 8 * (w / 32 % 32)) (by omega),
    Nat.mod_eq_of_lt (a := 8 * (w % 32)) (by omega),
    Nat.mul_div_cancel_left _ (by norm_num : (0:Nat) < 8),
    Nat.mul_div_cancel_left _ (by norm_num : (0:Nat) < 8),
    Nat.mul_div_cancel_left _ (by norm_num : (0:Nat) < 8)]
  have e10 : (w / 1024) <<< 10 = 2 ^ 10 * (w / 1024) := by
    rw [Nat.shiftLeft_eq]; ring
  have e5 : (w / 32 % 32) <<< 5 = 2 ^ 5 * (w / 32 % 32) := by
    rw [Nat.shiftLeft_eq]; ring
  rw [e10, e5]
  have or1 : 2 ^ 10 * (w / 1024) ||| 2 ^ 5 * (w / 32 % 32)
      = 2 ^ 10 * (w / 1024) + 2 ^ 5 * (w / 32 % 32) :=
    (Nat.mul_add_lt_is_or (by omega) (w / 1024)).symm
  have split2 : 2 ^ 10 * (w / 1024) + 2 ^ 5 * (w / 32 % 32)
      = 2 ^ 5 * (2 ^ 5 * (w / 1024) + w / 32 % 32) := by ring
  have or2 : 2 ^ 5 * (2 ^ 5 * (w / 1024) + w / 32 % 32) ||| w % 32
      = 2 ^ 5 * (2 ^ 5 * (w / 1024) + w / 32 % 32) + w % 32 :=
    (Nat.mul_add_lt_is_or (by omega) _).symm
  rw [or1, split2, or2]
  omega

/-- C9 witness: the round trip at the largest 15-bit word. -/
theorem rgb15_color_roundtrip_witness :
    colorToRgb15 (rgb15ToColor 0x7FFF) = 0x7FFF :=
  rgb15_color_roundtrip 0x7FFF (by decide)

/-- The per-instruction rewriting the specification describes for the label
pass: `LabeledJump(type, name) ↦ Jump(type, pc)`, `LabeledCall(name) ↦
Call(Local(pc))` with `pc` the table entry for `name`, `Label(_) ↦ Nop`,
everything else unchanged. -/
def resolveInstr (jt : List (String × Nat)) : Instruction → Instruction
  | ._LabeledJump jumpType label =>
    match tableGet jt label with
    | some pc => .Jump jumpType pc
    | none => ._LabeledJump jumpType label
  | ._LabeledCall label =>
    match tableGet jt label with
    | some pc => .Call (.Local pc)
    | none => ._LabeledCall label
  | ._Label _ => .Nop
  | i => i

/-- Decidable form of "every label referenced by a jump or call is defined"
with respect to a reverse table `jt`. -/
def allLabelsResolve (jt : List (String × Nat)) (code : List Instruction) : Bool :=
  code.all fun i =>
    match i with
    | ._LabeledJump _ label => (tableGet jt label).isSome
    | ._LabeledCall label => (tableGet jt label).isSome
    | _ => true

theorem processLabelsGo_resolved (jt : List (String × Nat))
    (code : List Instruction) :
    ∀ line, allLabelsResolve jt code = true →
      processLabelsGo jt line code = (code.map (resolveInstr jt), []) := by
  induction code with
  | nil => intro _ _; rfl
  | cons i rest ih =>
    intro line h
    simp only [allLabelsResolve, List.all_cons, Bool.and_eq_true] at h
    obtain ⟨hi, hrest⟩ := h
    have hr : processLabelsGo jt (line + 1) rest = (rest.map (resolveInstr jt), []) :=
      ih (line + 1) hrest
    cases i with
    | _LabeledJump jumpType label =>
      obtain ⟨pc, hpc⟩ := Option.isSome_iff_exists.mp hi
      simp [processLabelsGo, resolveInstr, hpc, hr]
    | _LabeledCall label =>
      obtain ⟨pc, hpc⟩ := Option.isSome_iff_exists.mp hi
      simp [processLabelsGo, resolveInstr, hpc, hr]
    | _ => simp [processLabelsGo, resolveInstr, hr]

theorem tableGet_mem {jt : List (String × Nat)} {label : String} {pc : Nat}
    (h : tableGet jt label = some pc) : (label, pc) ∈ jt := by
  rw [tableGet, List.lookup_eq_some_iff] at h
  obtain ⟨l₁, l₂, hsplit, _⟩ := h
  have hmem : (label, pc) ∈ jt.reverse := by
    rw [hsplit]; simp
  simpa using hmem

theorem jumpTable_mem {code : List Instruction} {label : String} {pc : Nat}
    (h : (label, pc) ∈ jumpTable code) : code[pc]? = some (._Label label) := by
  rw [jumpTable, List.mem_filterMap] at h
  obtain ⟨p, hmem, hf⟩ := h
  rw [List.mem_enum_iff_getElem?] at hmem
  obtain ⟨i, inst⟩ := p
  cases inst <;> simp at hf
  obtain ⟨hl, hp⟩ := hf
  subst hl
  subst hp
  exact hmem

/-- C5.  When every referenced label is defined, the label pass succeeds and
maps the stream elementwise: `LabeledJump(type, name)` to `Jump(type, pc)`,
`LabeledCall(name)` to `Call(Local(pc))` where `pc` indexes the `Label(name)`
placeholder, `Label(_)` to `Nop`, and every other instruction to itself — so
the index of every instruction in the output equals its index in the input. -/
theorem process_labels_resolves_all (code : List Instruction)
    (h : allLabelsResolve (jumpTable code) code = true) :
    (processLabels code
      = .ok (code.map (resolveInstr (jumpTable code)),
          (jumpTable code).map fun p => (p.2, p.1))) ∧
    ∀ label pc, tableGet (jumpTable code) label = some pc →
      code[pc]? = some (._Label label) := by
  constructor
  · simp only [processLabels]
    rw [processLabelsGo_resolved _ _ 0 h]
    rfl
  · intro label pc htg
    exact jumpTable_mem (tableGet_mem htg)

/-- C5 witness: a concrete two-instruction stream with one label and one
labeled jump resolves to `[Nop, Jump(Unconditional, 0)]`. -/
theorem process_labels_resolves_all_witness :
    processLabels [._Label "a", ._LabeledJump .Unconditional "a"]
      = .ok ([.Nop, .Jump .Unconditional 0], [(0, "a")]) := by
  rw [(process_labels_resolves_all
    [._Label "a", ._LabeledJump .Unconditional "a"] (by decide)).1]
  rfl

/-- One undefined-label occurrence: a `LabeledJump`/`LabeledCall` whose name
is absent from the reverse table, paired with its index `p.1` in the
instruction stream (mirroring `missing_labels.push((label, line))`). -/
def undefUse (jt : List (String × Nat)) (p : Nat × Instruction) :
    Option (String × Nat) :=
  match p.2 with
  | ._LabeledJump _ label =>
    if (tableGet jt label).isSome then none else some (label, p.1)
  | ._LabeledCall label =>
    if (tableGet jt label).isSome then none else some (label, p.1)
  | _ => none

/-- All undefined-label occurrences of a stream, each tagged with its index
in the stream. -/
def undefinedLabelUses (code : List Instruction) : List (String × Nat) :=
  code.enum.filterMap (undefUse (jumpTable code))

theorem processLabelsGo_missing (jt : List (String × Nat))
    (code : List Instruction) :
    ∀ line, (processLabelsGo jt line code).2
      = (code.enumFrom line).filterMap (undefUse jt) := by
  induction code with
  | nil => intro _; rfl
  | cons i rest ih =>
    intro line
    cases i with
    | _LabeledJump jumpType label =>
      cases htg : tableGet jt label <;>
        simp [processLabelsGo, undefUse, htg, ih (line + 1), List.enumFrom_cons]
    | _LabeledCall label =>
      cases htg : tableGet jt label <;>
        simp [processLabelsGo, undefUse, htg, ih (line + 1), List.enumFrom_cons]
    | _ => simp [processLabelsGo, undefUse, ih (line + 1), List.enumFrom_cons]

/-- C6 amended.  When at least one jump or call names an undefined label,
`compile` (entered after lexical parsing succeeded on every line) returns
exactly one `InvalidLabel` error per occurrence, in stream order, with
`info` the missing name — but the `location` field is the 0-based index of
the occurrence in the assembled instruction stream (`process_labels`
enumerates the instruction vector), not the source line number recorded by
the preprocessor: the pairs in `lines` are dropped by the `compile` loop. -/
theorem compile_missing_label_errors (lines : List (Nat × Instruction))
    (h : undefinedLabelUses (lines.map Prod.snd) ≠ []) :
    compileParsed lines
      = .error ((undefinedLabelUses (lines.map Prod.snd)).map
          fun p => { error_type := .InvalidLabel, location := p.2, info := some p.1 }) := by
  have hpl : processLabels (lines.map Prod.snd)
      = .error (undefinedLabelUses (lines.map Prod.snd)) := by
    simp only [processLabels]
    rw [processLabelsGo_missing]
    have henum : (lines.map Prod.snd).enumFrom 0 = (lines.map Prod.snd).enum := rfl
    rw [henum]
    cases hul : undefinedLabelUses (lines.map Prod.snd) with
    | nil => exact absurd hul h
    | cons a t =>
      rw [undefinedLabelUses] at hul
      rw [hul]
      rfl
  simp only [compileParsed]
  rw [hpl]

/-- C6 amended witness: `nop` at source line 0, a blank source line 1, and
`jmp nowhere` at source line 2; the error list has exactly the one
occurrence. -/
theorem compile_missing_label_errors_witness :
    compileParsed [(0, .Nop), (2, ._LabeledJump .Unconditional "nowhere")]
      = .error ((undefinedLabelUses
            ([(0, .Nop), (2, ._LabeledJump .Unconditional "nowhere")].map Prod.snd)).map
          fun p => { error_type := .InvalidLabel, location := p.2, info := some p.1 }) :=
  compile_missing_label_errors
    [(0, .Nop), (2, ._LabeledJump .Unconditional "nowhere")] (by decide)

/-- C6 counterexample.  The source program `"nop\n\njmp nowhere"` preprocesses
to the pairs `[(0, Nop), (2, LabeledJump(Unconditional, "nowhere"))]` — the
`jmp nowhere` sits on source line 2 (0-based; line 3 in 1-based counting),
because the blank line is dropped but its line number is not reused.  The
compile reports the single `InvalidLabel` error with `info = "nowhere"` but
`location = 1`, the instruction index — not the source line number, refuting
the claim's location clause. -/
theorem compile_missing_label_location_counterexample :
    compileParsed [(0, .Nop), (2, ._LabeledJump .Unconditional "nowhere")]
      = .error [{ error_type := .InvalidLabel, location := 1, info := some "nowhere" }] ∧
    (1 : Nat) ≠ 2 ∧ (1 : Nat) ≠ 3 := by
  refine ⟨rfl, by decide, by decide⟩

/-- C3.  A `Call(Local(t))` at index `i` pushes the return address `i` MSB
first then LSB (so the MSB sits at `sp-1`, the LSB at `sp-2`), and jumps to
`t` (landing at `t+1` after the step's increment).  Any `Return` later
executed from a state whose stack-pointer cells and two return-address bytes
are unchanged — which is precisely what balanced pushes and pops in the
called code guarantee — pops LSB then MSB, reassembles `i`, and the step ends
with `pc = i + 1`, exactly one past the `Call`.  The side conditions keep the
pushes inside the architecturally defined stack region `[0, 0x0F00]` (below
the stack-pointer MMIO cells) and the return address representable in the
16-bit cast the source applies to `pc`. -/
theorem call_return_roundtrip (s : Devola) (i t : Nat)
    (hpc : s.pc = i) (hi : i < 65536)
    (hfetch : s.code[i]? = some (.Call (.Local t)))
    (hsplo : 2 ≤ getStackPointer s) (hsphi : getStackPointer s ≤ 0x0F00) :
    ∃ s1, s.step = .ok s1 ∧ s1.pc = t + 1 ∧
      getStackPointer s1 = getStackPointer s - 2 ∧
      s1.mem (getStackPointer s - 1) = (breakU16 i).1 ∧
      s1.mem (getStackPointer s - 2) = (breakU16 i).2 ∧
      (∀ s2 : Devola, s2.code[s2.pc]? = some .Return →
        s2.mem STACK_POINTER_MSB = s1.mem STACK_POINTER_MSB →
        s2.mem STACK_POINTER_LSB = s1.mem STACK_POINTER_LSB →
        s2.mem (getStackPointer s - 1) = s1.mem (getStackPointer s - 1) →
        s2.mem (getStackPointer s - 2) = s1.mem (getStackPointer s - 2) →
        ∃ s3, s2.step = .ok s3 ∧ s3.pc = i + 1) := by
  subst hpc
  have hmod : s.pc % 65536 = s.pc := Nat.mod_eq_of_lt hi
  have hstep : s.step = .ok { pushByte (pushByte s (breakU16 s.pc).1) (breakU16 s.pc).2
      with pc := t + 1 } := by
    simp only [Devola.step, hfetch, executeInstruction, hmod]
  have h1 : getStackPointer (pushByte s (breakU16 s.pc).1) = getStackPointer s - 1 := by
    rw [getStackPointer_pushByte]; omega
  have h2 : getStackPointer (pushByte (pushByte s (breakU16 s.pc).1) (breakU16 s.pc).2)
      = getStackPointer s - 2 := by
    rw [getStackPointer_pushByte, h1]; omega
  have hm1 : (pushByte (pushByte s (breakU16 s.pc).1) (breakU16 s.pc).2).mem
      (getStackPointer s - 1) = (breakU16 s.pc).1 := by
    rw [pushByte_mem, h1,
      if_neg (by simp only [STACK_POINTER_LSB]; omega),
      if_neg (by simp only [STACK_POINTER_MSB]; omega),
      if_neg (by omega),
      pushByte_mem,
      if_neg (by simp only [STACK_POINTER_LSB]; omega),
      if_neg (by simp only [STACK_POINTER_MSB]; omega),
      if_pos (by omega)]
  have hm2 : (pushByte (pushByte s (breakU16 s.pc).1) (breakU16 s.pc).2).mem
      (getStackPointer s - 2) = (breakU16 s.pc).2 := by
    rw [pushByte_mem, h1,
      if_neg (by simp only [STACK_POINTER_LSB]; omega),
      if_neg (by simp only [STACK_POINTER_MSB]; omega),
      if_pos (by omega)]
  refine ⟨_, hstep, rfl, h2, hm1, hm2, ?_⟩
  intro s2 hret hMSBeq hLSBeq he1 he2
  have hsp2 : getStackPointer s2 = getStackPointer s - 2 := by
    rw [getStackPointer, hMSBeq, hLSBeq]
    exact h2
  have hstep2 : s2.step = .ok { (popByte (popByte s2).2).2
      with pc := buildU16 (popByte (popByte s2).2).1 (popByte s2).1 + 1 } := by
    simp only [Devola.step, hret, executeInstruction]
  have hv1 : (popByte s2).1 = (breakU16 s.pc).2 := by
    rw [popByte_val, popByte_mem, hsp2]
    have ha : ((getStackPointer s - 2 + 1) % 65536 + 65535) % 65536
        = getStackPointer s - 2 := by omega
    rw [ha,
      if_neg (by simp only [STACK_POINTER_LSB]; omega),
      if_neg (by simp only [STACK_POINTER_MSB]; omega),
      he2]
    exact hm2
  have hspA : getStackPointer (popByte s2).2 = getStackPointer s - 1 := by
    rw [getStackPointer_popByte, hsp2]; omega
  have hv2 : (popByte (popByte s2).2).1 = (breakU16 s.pc).1 := by
    rw [popByte_val, popByte_mem, hspA]
    have ha : ((getStackPointer s - 1 + 1) % 65536 + 65535) % 65536
        = getStackPointer s - 1 := by omega
    rw [ha,
      if_neg (by simp only [STACK_POINTER_LSB]; omega),
      if_neg (by simp only [STACK_POINTER_MSB]; omega),
      popByte_mem, hsp2,
      if_neg (by simp only [STACK_POINTER_LSB]; omega),
      if_neg (by simp only [STACK_POINTER_MSB]; omega),
      he1]
    exact hm1
  refine ⟨_, hstep2, ?_⟩
  show buildU16 (popByte (popByte s2).2).1 (popByte s2).1 + 1 = s.pc + 1
  rw [hv1, hv2, buildU16_breakU16 s.pc hi]

/-- C3 witness: on the concrete program `[Call(Local 3), Nop, Nop, Nop,
Return]` the fresh VM's first step succeeds and lands at `pc = 4`. -/
theorem call_return_roundtrip_witness :
    ∃ s1, (Devola.new [.Call (.Local 3), .Nop, .Nop, .Nop, .Return]).step
        = .ok s1 ∧ s1.pc = 3 + 1 := by
  obtain ⟨s1, ha, hb, _⟩ :=
    call_return_roundtrip (Devola.new [.Call (.Local 3), .Nop, .Nop, .Nop, .Return])
      0 3 rfl (by decide) rfl (by decide) (by decide)
  exact ⟨s1, ha, hb⟩

end Popola
